import Mathlib

/-!
Shallow embedding of the Bitcoin legacy-transaction codec (src/lib.rs).

Rust `u8` buffers are modelled as `List Nat` (each element intended `< 256`);
Rust integer casts (`as u8`, `as u16`, …) are modelled with explicit
truncation via `toLE`, which only keeps a value modulo the target width.
Fallible decoders (`Result<(T, usize), BitcoinError>`) become
`Except BitcoinError (T × Nat)`.
-/

/-- Error type `BitcoinError` from src/lib.rs (lines 10–14). -/
inductive BitcoinError where
  | InsufficientBytes
  | InvalidFormat
deriving DecidableEq, Repr

/-- The `n` little-endian bytes of `v`, i.e. the bytes of `v % 2^(8*n)`.
Models Rust's `toLeBytes` on a fixed-width integer: the implicit
truncation of a cast such as `as u16` is absorbed here, since only
`v % 2^(8*n)` influences the result. -/
def toLE : Nat → Nat → List Nat
  | 0, _ => []
  | n + 1, v => v % 256 :: toLE n (v / 256)

/-- Little-endian value of a byte list; models Rust's `fromLeBytes`. -/
def fromLE : List Nat → Nat
  | [] => 0
  | b :: bs => b + 256 * fromLE bs

/-- Type `CompactSize` (src/lib.rs lines 5–8): a wrapped `u64`. -/
structure CompactSize where
  value : Nat
deriving DecidableEq, Repr

/-- Constructor `CompactSize::new` (line 17). -/
def CompactSize.new (value : Nat) : CompactSize := ⟨value⟩

/-- Function `CompactSize::to_bytes` (lines 21–40). The `self.value as u8` cast of the
first arm is the explicit `% 256`; the `as u16` / `as u32` casts of the other
arms are absorbed by `toLE 2` / `toLE 4`. -/
def CompactSize.to_bytes (c : CompactSize) : List Nat :=
  if c.value ≤ 0xFC then [c.value % 256]
  else if c.value ≤ 0xFFFF then 0xFD :: toLE 2 c.value
  else if c.value ≤ 0xFFFFFFFF then 0xFE :: toLE 4 c.value
  else 0xFF :: toLE 8 c.value

/-- Function `CompactSize::from_bytes` (lines 42–73). The Rust `match` on a `u8` is
exhaustive with arms `0x00..=0xFC`, `0xFD`, `0xFE`, `0xFF`; the final
else-branch is the `0xFF` arm (buffers are `u8`, so every byte is `< 256`).
`bytes.len() < 3` becomes `rest.length < 2`, and the reads
`[bytes[1], …, bytes[k]]` become `rest.take k`. -/
def CompactSize.from_bytes (bytes : List Nat) :
    Except BitcoinError (CompactSize × Nat) :=
  match bytes with
  | [] => .error .InsufficientBytes
  | b :: rest =>
    if b ≤ 0xFC then .ok (CompactSize.new b, 1)
    else if b = 0xFD then
      if rest.length < 2 then .error .InsufficientBytes
      else .ok (CompactSize.new (fromLE (rest.take 2)), 3)
    else if b = 0xFE then
      if rest.length < 4 then .error .InsufficientBytes
      else .ok (CompactSize.new (fromLE (rest.take 4)), 5)
    else
      if rest.length < 8 then .error .InsufficientBytes
      else .ok (CompactSize.new (fromLE (rest.take 8)), 9)

/-- Well-formedness of a `CompactSize` value: `value` fits in a `u64`. -/
def CompactSize.WF (c : CompactSize) : Prop := c.value < 2 ^ 64

instance (c : CompactSize) : Decidable c.WF := by
  unfold CompactSize.WF; infer_instance

/-- Type `Txid` (src/lib.rs line 77): a 32-byte array, modelled as a list whose
well-formedness fixes the length. The Rust tuple field `.0` is `bytes`. -/
structure Txid where
  bytes : List Nat
deriving DecidableEq, Repr

/-- Well-formedness of a `Txid`: exactly 32 bytes, each a `u8`. -/
def Txid.WF (t : Txid) : Prop :=
  t.bytes.length = 32 ∧ ∀ b ∈ t.bytes, b < 256

instance (t : Txid) : Decidable t.WF := by
  unfold Txid.WF; infer_instance

/-- Type `OutPoint` (src/lib.rs lines 104–108). -/
structure OutPoint where
  txid : Txid
  vout : Nat
deriving DecidableEq, Repr

/-- Constructor `OutPoint::new` (lines 111–116). -/
def OutPoint.new (txid : List Nat) (vout : Nat) : OutPoint := ⟨⟨txid⟩, vout⟩

/-- Function `OutPoint::to_bytes` (lines 118–122). -/
def OutPoint.to_bytes (p : OutPoint) : List Nat :=
  p.txid.bytes ++ toLE 4 p.vout

/-- Function `OutPoint::from_bytes` (lines 124–132): requires 36 bytes; txid is
`bytes[0..32]`, vout is `bytes[32..36]` little-endian, consumed = 36. -/
def OutPoint.from_bytes (bytes : List Nat) :
    Except BitcoinError (OutPoint × Nat) :=
  if bytes.length < 36 then .error .InsufficientBytes
  else .ok (OutPoint.new (bytes.take 32) (fromLE ((bytes.drop 32).take 4)), 36)

/-- Well-formedness of an `OutPoint`: 32-byte txid and a `u32` vout. -/
def OutPoint.WF (p : OutPoint) : Prop := p.txid.WF ∧ p.vout < 2 ^ 32

instance (p : OutPoint) : Decidable p.WF := by
  unfold OutPoint.WF; infer_instance

/-- Type `Script` (src/lib.rs lines 135–138). -/
structure Script where
  bytes : List Nat
deriving DecidableEq, Repr

/-- Constructor `Script::new` (lines 141–143). -/
def Script.new (bytes : List Nat) : Script := ⟨bytes⟩

/-- Function `Script::to_bytes` (lines 145–149): CompactSize length prefix, then the
raw bytes. The `self.bytes.len() as u64` cast is lossless for any Rust
`Vec` (length ≤ isize::MAX < 2^63 < 2^64). -/
def Script.to_bytes (s : Script) : List Nat :=
  (CompactSize.new s.bytes.length).to_bytes ++ s.bytes

/-- Function `Script::from_bytes` (lines 151–160) with ideal (unbounded) arithmetic
for `end = consumed + len`: the Rust `usize` addition can overflow, which is
modelled separately by `Script.from_bytes_usize` below; the two agree on
every buffer whose declared length keeps `consumed + len < 2^64`.
`bytes[consumed..end]` becomes `(bytes.drop consumed).take len`. -/
def Script.from_bytes (bytes : List Nat) :
    Except BitcoinError (Script × Nat) :=
  match CompactSize.from_bytes bytes with
  | .error e => .error e
  | .ok (lenp, consumed) =>
    let len := lenp.value
    let stop := consumed + len
    if bytes.length < stop then .error .InsufficientBytes
    else .ok (Script.new ((bytes.drop consumed).take len), stop)

/-- Function `Script::from_bytes` (lines 151–160) with faithful 64-bit `usize`
arithmetic, release-mode semantics: `end = consumed + len` wraps modulo
2^64, and the slice `bytes[consumed..end]` panics when `consumed > end`
(in a debug build the wrapping addition itself panics at exactly the same
inputs). `none` models the panic. -/
def Script.from_bytes_usize (bytes : List Nat) :
    Option (Except BitcoinError (Script × Nat)) :=
  match CompactSize.from_bytes bytes with
  | .error e => some (.error e)
  | .ok (lenp, consumed) =>
    let len := lenp.value
    let stop := (consumed + len) % 2 ^ 64
    if bytes.length < stop then some (.error .InsufficientBytes)
    else if consumed ≤ stop then
      some (.ok (Script.new ((bytes.drop consumed).take (stop - consumed)), stop))
    else none

/-- Well-formedness of a `Script`: `u8` contents, and a length representable
as a Rust `Vec` length (≤ isize::MAX, so < 2^63). -/
def Script.WF (s : Script) : Prop :=
  (∀ b ∈ s.bytes, b < 256) ∧ s.bytes.length < 2 ^ 63

instance (s : Script) : Decidable s.WF := by
  unfold Script.WF; infer_instance

/-- Type `TransactionInput` (src/lib.rs lines 170–175). -/
structure TransactionInput where
  previous_output : OutPoint
  script_sig : Script
  sequence : Nat
deriving DecidableEq, Repr

/-- Constructor `TransactionInput::new` (lines 178–184). -/
def TransactionInput.new (previous_output : OutPoint) (script_sig : Script)
    (sequence : Nat) : TransactionInput :=
  ⟨previous_output, script_sig, sequence⟩

/-- Function `TransactionInput::to_bytes` (lines 186–191). -/
def TransactionInput.to_bytes (i : TransactionInput) : List Nat :=
  i.previous_output.to_bytes ++ i.script_sig.to_bytes ++ toLE 4 i.sequence

/-- Function `TransactionInput::from_bytes` (lines 193–207): OutPoint, then Script at
offset `consumed1`, then 4 more bytes of sequence. -/
def TransactionInput.from_bytes (bytes : List Nat) :
    Except BitcoinError (TransactionInput × Nat) :=
  match OutPoint.from_bytes bytes with
  | .error e => .error e
  | .ok (outpoint, consumed1) =>
    match Script.from_bytes (bytes.drop consumed1) with
    | .error e => .error e
    | .ok (script, consumed2) =>
      if bytes.length < consumed1 + consumed2 + 4 then
        .error .InsufficientBytes
      else
        .ok (TransactionInput.new outpoint script
              (fromLE ((bytes.drop (consumed1 + consumed2)).take 4)),
            consumed1 + consumed2 + 4)

/-- Well-formedness of a `TransactionInput`. -/
def TransactionInput.WF (i : TransactionInput) : Prop :=
  i.previous_output.WF ∧ i.script_sig.WF ∧ i.sequence < 2 ^ 32

instance (i : TransactionInput) : Decidable i.WF := by
  unfold TransactionInput.WF; infer_instance

/-- Type `BitcoinTransaction` (src/lib.rs lines 210–215). -/
structure BitcoinTransaction where
  version : Nat
  inputs : List TransactionInput
  lock_time : Nat
deriving DecidableEq, Repr

/-- Constructor `BitcoinTransaction::new` (lines 218–224). -/
def BitcoinTransaction.new (version : Nat) (inputs : List TransactionInput)
    (lock_time : Nat) : BitcoinTransaction :=
  ⟨version, inputs, lock_time⟩

/-- Function `BitcoinTransaction::to_bytes` (lines 226–234): version (4-byte LE) ++
CompactSize input count ++ each input's encoding ++ lock_time (4-byte LE). -/
def BitcoinTransaction.to_bytes (t : BitcoinTransaction) : List Nat :=
  toLE 4 t.version ++ (CompactSize.new t.inputs.length).to_bytes ++
    (t.inputs.map TransactionInput.to_bytes).flatten ++ toLE 4 t.lock_time

/-- The input-decoding loop of `BitcoinTransaction::from_bytes`
(lines 242–248): decode `n` inputs from `bytes`, starting at `offset`,
advancing the offset by each input's consumed length; returns the inputs
in order together with the final offset. -/
def decodeInputs : Nat → List Nat → Nat →
    Except BitcoinError (List TransactionInput × Nat)
  | 0, _, offset => .ok ([], offset)
  | n + 1, bytes, offset =>
    match TransactionInput.from_bytes (bytes.drop offset) with
    | .error e => .error e
    | .ok (input, consumed) =>
      match decodeInputs n bytes (offset + consumed) with
      | .error e => .error e
      | .ok (inputs, finalOffset) => .ok (input :: inputs, finalOffset)

/-- Function `BitcoinTransaction::from_bytes` (lines 236–259). -/
def BitcoinTransaction.from_bytes (bytes : List Nat) :
    Except BitcoinError (BitcoinTransaction × Nat) :=
  if bytes.length < 4 then .error .InsufficientBytes
  else
    match CompactSize.from_bytes (bytes.drop 4) with
    | .error e => .error e
    | .ok (input_count, consumed1) =>
      match decodeInputs input_count.value bytes (4 + consumed1) with
      | .error e => .error e
      | .ok (inputs, offset) =>
        if bytes.length < offset + 4 then .error .InsufficientBytes
        else
          .ok (BitcoinTransaction.new (fromLE (bytes.take 4)) inputs
                (fromLE ((bytes.drop offset).take 4)),
              offset + 4)

/-- Well-formedness of a `BitcoinTransaction`: `u32` version and lock time,
well-formed inputs, and an input count representable as a Rust `Vec`
length (< 2^63). -/
def BitcoinTransaction.WF (t : BitcoinTransaction) : Prop :=
  t.version < 2 ^ 32 ∧ (∀ i ∈ t.inputs, i.WF) ∧
    t.inputs.length < 2 ^ 63 ∧ t.lock_time < 2 ^ 32

instance (t : BitcoinTransaction) : Decidable t.WF := by
  unfold BitcoinTransaction.WF; infer_instance

/-- Value of a hex digit character, or `none` if the character is not a hex
digit. Modelled from the spec: the hex utility is an external collaborator
("a lookup/utility service the core calls into but does not implement"),
with the standard semantics of the `hex` crate: digits `0-9`, `a-f`, `A-F`. -/
def hexDigitVal (c : Char) : Option Nat :=
  if '0' ≤ c ∧ c ≤ '9' then some (c.toNat - '0'.toNat)
  else if 'a' ≤ c ∧ c ≤ 'f' then some (c.toNat - 'a'.toNat + 10)
  else if 'A' ≤ c ∧ c ≤ 'F' then some (c.toNat - 'A'.toNat + 10)
  else none

/-- Hex-decode a character list to bytes. Modelled from the spec:
`hex::decode` fails on a string of odd length or containing a character
that is not a hex digit, and otherwise turns each pair of digits into one
byte. -/
def hexDecode : List Char → Option (List Nat)
  | [] => some []
  | [_] => none
  | c1 :: c2 :: rest =>
    match hexDigitVal c1, hexDigitVal c2, hexDecode rest with
    | some d1, some d2, some bs => some ((16 * d1 + d2) :: bs)
    | _, _, _ => none

/-- The `Txid` text-decoding path (src/lib.rs lines 88–102,
`Deserialize for Txid`): hex-decode the string (a failure of the external
hex utility is surfaced as the structural error, `InvalidFormat`), then
require exactly 32 bytes ("Txid must be 32 bytes", also `InvalidFormat`). -/
def Txid.fromText (s : String) : Except BitcoinError Txid :=
  match hexDecode s.data with
  | none => .error .InvalidFormat
  | some bs => if bs.length ≠ 32 then .error .InvalidFormat else .ok ⟨bs⟩

instance {ε α : Type} [DecidableEq ε] [DecidableEq α] :
    DecidableEq (Except ε α) := fun a b =>
  match a, b with
  | .error e1, .error e2 =>
    if h : e1 = e2 then .isTrue (h ▸ rfl)
    else .isFalse (fun hh => h (Except.error.inj hh))
  | .error _, .ok _ => .isFalse (fun hh => Except.noConfusion hh)
  | .ok _, .error _ => .isFalse (fun hh => Except.noConfusion hh)
  | .ok v1, .ok v2 =>
    if h : v1 = v2 then .isTrue (h ▸ rfl)
    else .isFalse (fun hh => h (Except.ok.inj hh))

theorem toLE_length (n v : Nat) : (toLE n v).length = n := by
  induction n generalizing v with
  | zero => rfl
  | succ n ih => simp [toLE, ih]

theorem fromLE_toLE {n v : Nat} (h : v < 2 ^ (8 * n)) :
    fromLE (toLE n v) = v := by
  induction n generalizing v with
  | zero => simp_all [toLE, fromLE, Nat.lt_one_iff]
  | succ n ih =>
    have hdiv : v / 256 < 2 ^ (8 * n) := by
      rw [Nat.div_lt_iff_lt_mul (by norm_num)]
      calc v < 2 ^ (8 * (n + 1)) := h
        _ = 2 ^ (8 * n) * 256 := by ring
    simp [toLE, fromLE, ih hdiv, Nat.mod_add_div]

/-- Round-trip of `CompactSize` with arbitrary trailing bytes. -/
theorem cs_decode_encode (c : CompactSize) (h : c.WF) (extra : List Nat) :
    CompactSize.from_bytes (c.to_bytes ++ extra) =
      .ok (c, c.to_bytes.length) := by
  obtain ⟨v⟩ := c
  unfold CompactSize.WF at h
  simp only [CompactSize.to_bytes] at *
  by_cases h1 : v ≤ 0xFC
  · have : v % 256 = v := Nat.mod_eq_of_lt (by omega)
    simp [h1, this, CompactSize.from_bytes, CompactSize.new]
  · by_cases h2 : v ≤ 0xFFFF
    · have hlen : (toLE 2 v).length = 2 := toLE_length 2 v
      simp [h1, h2, CompactSize.from_bytes, hlen, List.take_append_of_le_length,
        List.take_of_length_le (le_of_eq hlen),
        fromLE_toLE (show v < 2 ^ (8 * 2) by omega), CompactSize.new]
    · by_cases h3 : v ≤ 0xFFFFFFFF
      · have hlen : (toLE 4 v).length = 4 := toLE_length 4 v
        simp [h1, h2, h3, CompactSize.from_bytes, hlen,
          List.take_append_of_le_length,
          List.take_of_length_le (le_of_eq hlen),
          fromLE_toLE (show v < 2 ^ (8 * 4) by omega), CompactSize.new]
      · have hlen : (toLE 8 v).length = 8 := toLE_length 8 v
        simp [h1, h2, h3, CompactSize.from_bytes, hlen,
          List.take_append_of_le_length,
          List.take_of_length_le (le_of_eq hlen),
          fromLE_toLE (show v < 2 ^ (8 * 8) by omega), CompactSize.new]

theorem outpoint_to_bytes_length (p : OutPoint) (h : p.WF) :
    p.to_bytes.length = 36 := by
  obtain ⟨⟨ht, _⟩, _⟩ := h
  simp [OutPoint.to_bytes, ht, toLE_length]

/-- Round-trip of `OutPoint` with arbitrary trailing bytes. -/
theorem outpoint_decode_encode (p : OutPoint) (h : p.WF) (extra : List Nat) :
    OutPoint.from_bytes (p.to_bytes ++ extra) = .ok (p, p.to_bytes.length) := by
  obtain ⟨⟨t⟩, v⟩ := p
  obtain ⟨⟨ht, -⟩, hv⟩ := h
  simp only [Txid.bytes] at ht
  have hv' : v < 2 ^ 32 := hv
  have hlen4 : (toLE 4 v).length = 4 := toLE_length 4 v
  have hbuf : (⟨⟨t⟩, v⟩ : OutPoint).to_bytes ++ extra = t ++ (toLE 4 v ++ extra) := by
    simp [OutPoint.to_bytes]
  rw [hbuf]
  have htake : (t ++ (toLE 4 v ++ extra)).take 32 = t := by
    rw [← ht]; exact List.take_left _ _
  have hdrop : (t ++ (toLE 4 v ++ extra)).drop 32 = toLE 4 v ++ extra := by
    rw [← ht]; exact List.drop_left _ _
  have htake4 : (toLE 4 v ++ extra).take 4 = toLE 4 v := by
    rw [← hlen4]; exact List.take_left _ _
  have hif : ¬ ((t ++ (toLE 4 v ++ extra)).length < 36) := by
    simp only [List.length_append, ht, hlen4]; omega
  unfold OutPoint.from_bytes
  rw [if_neg hif, htake, hdrop, htake4,
    fromLE_toLE (show v < 2 ^ (8 * 4) by omega)]
  simp [OutPoint.new, OutPoint.to_bytes, ht, hlen4]

/-- Round-trip of `Script` with arbitrary trailing bytes. -/
theorem script_decode_encode (s : Script) (h : s.bytes.length < 2 ^ 64)
    (extra : List Nat) :
    Script.from_bytes (s.to_bytes ++ extra) = .ok (s, s.to_bytes.length) := by
  obtain ⟨bs⟩ := s
  simp only [Script.bytes] at h
  have hcs := cs_decode_encode (CompactSize.new bs.length) h (bs ++ extra)
  have hbuf : (⟨bs⟩ : Script).to_bytes ++ extra =
      (CompactSize.new bs.length).to_bytes ++ (bs ++ extra) := by
    simp [Script.to_bytes]
  rw [hbuf]
  rw [Script.from_bytes, hcs]
  have hdrop : ((CompactSize.new bs.length).to_bytes ++ (bs ++ extra)).drop
      (CompactSize.new bs.length).to_bytes.length = bs ++ extra :=
    List.drop_left _ _
  have htake : (bs ++ extra).take bs.length = bs := List.take_left _ _
  have hnlt : ¬ ((CompactSize.new bs.length).to_bytes ++ (bs ++ extra)).length <
      (CompactSize.new bs.length).to_bytes.length +
        (CompactSize.new bs.length).value := by
    simp [List.length_append, CompactSize.new]
  simp [CompactSize.new, hnlt, hdrop, htake, Script.new, Script.to_bytes,
    List.length_append]

/-- Round-trip of `TransactionInput` with arbitrary trailing bytes. -/
theorem input_decode_encode (i : TransactionInput) (h : i.WF) (extra : List Nat) :
    TransactionInput.from_bytes (i.to_bytes ++ extra) =
      .ok (i, i.to_bytes.length) := by
  obtain ⟨p, s, q⟩ := i
  obtain ⟨hp, hs, hq⟩ := h
  have hq' : q < 2 ^ 32 := hq
  have hlen4 : (toLE 4 q).length = 4 := toLE_length 4 q
  have hbuf : (⟨p, s, q⟩ : TransactionInput).to_bytes ++ extra =
      p.to_bytes ++ (s.to_bytes ++ (toLE 4 q ++ extra)) := by
    simp [TransactionInput.to_bytes]
  rw [hbuf]
  have h1 := outpoint_decode_encode p hp (s.to_bytes ++ (toLE 4 q ++ extra))
  have hpl : p.to_bytes.length = 36 := outpoint_to_bytes_length p hp
  have hs' : s.WF := hs
  have h2 := script_decode_encode s (by have := hs'.2; omega) (toLE 4 q ++ extra)
  have hdrop1 : (p.to_bytes ++ (s.to_bytes ++ (toLE 4 q ++ extra))).drop
      p.to_bytes.length = s.to_bytes ++ (toLE 4 q ++ extra) :=
    List.drop_left _ _
  simp only [TransactionInput.from_bytes, h1, hdrop1, h2]
  have hdropseq : (p.to_bytes ++ (s.to_bytes ++ (toLE 4 q ++ extra))).drop
      (p.to_bytes.length + s.to_bytes.length) = toLE 4 q ++ extra := by
    rw [← List.append_assoc, ← List.length_append]
    exact List.drop_left _ _
  have htake4 : (toLE 4 q ++ extra).take 4 = toLE 4 q := by
    rw [← hlen4]; exact List.take_left _ _
  have hif : ¬ ((p.to_bytes ++ (s.to_bytes ++ (toLE 4 q ++ extra))).length <
      p.to_bytes.length + s.to_bytes.length + 4) := by
    simp only [List.length_append, hlen4]; omega
  rw [if_neg hif, hdropseq, htake4,
    fromLE_toLE (show q < 2 ^ (8 * 4) by omega)]
  simp [TransactionInput.new, TransactionInput.to_bytes, hlen4]
  omega

/-- The input loop decodes an encoded input list laid out after a prefix,
returning the inputs unchanged and advancing the offset over exactly the
encoded inputs; trailing bytes are ignored. -/
theorem decodeInputs_encode (inputs : List TransactionInput)
    (h : ∀ i ∈ inputs, i.WF) (pre rest : List Nat) :
    decodeInputs inputs.length
        (pre ++ ((inputs.map TransactionInput.to_bytes).flatten ++ rest))
        pre.length =
      .ok (inputs,
        pre.length + (inputs.map TransactionInput.to_bytes).flatten.length) := by
  induction inputs generalizing pre with
  | nil => simp [decodeInputs]
  | cons i is ih =>
    have hi : i.WF := h i (by simp)
    have hflat : ((i :: is).map TransactionInput.to_bytes).flatten =
        i.to_bytes ++ (is.map TransactionInput.to_bytes).flatten := by
      simp
    rw [hflat]
    have hdrop : (pre ++ ((i.to_bytes ++
        (is.map TransactionInput.to_bytes).flatten) ++ rest)).drop pre.length =
        (i.to_bytes ++ (is.map TransactionInput.to_bytes).flatten) ++ rest :=
      List.drop_left _ _
    have h1 : TransactionInput.from_bytes
        ((i.to_bytes ++ (is.map TransactionInput.to_bytes).flatten) ++ rest) =
        .ok (i, i.to_bytes.length) := by
      rw [List.append_assoc]
      exact input_decode_encode i hi
        ((is.map TransactionInput.to_bytes).flatten ++ rest)
    have hrec := ih (fun j hj => h j (by simp [hj])) (pre ++ i.to_bytes)
    have hrec' : decodeInputs is.length
        (pre ++ ((i.to_bytes ++
          (is.map TransactionInput.to_bytes).flatten) ++ rest))
        (pre.length + i.to_bytes.length) =
        .ok (is, pre.length + i.to_bytes.length +
          (is.map TransactionInput.to_bytes).flatten.length) := by
      have e1 : pre ++ ((i.to_bytes ++
          (is.map TransactionInput.to_bytes).flatten) ++ rest) =
          (pre ++ i.to_bytes) ++
            ((is.map TransactionInput.to_bytes).flatten ++ rest) := by
        simp
      have e2 : pre.length + i.to_bytes.length = (pre ++ i.to_bytes).length := by
        simp
      rw [e1, e2, hrec]
    simp only [List.length_cons, decodeInputs, hdrop, h1, hrec']
    have e3 : pre.length + i.to_bytes.length +
        (is.map TransactionInput.to_bytes).flatten.length =
        pre.length +
          (i.to_bytes ++ (is.map TransactionInput.to_bytes).flatten).length := by
      simp only [List.length_append]
      omega
    rw [e3]

/-- Round-trip of `BitcoinTransaction` with arbitrary trailing bytes. -/
theorem tx_decode_encode (t : BitcoinTransaction) (h : t.WF) (extra : List Nat) :
    BitcoinTransaction.from_bytes (t.to_bytes ++ extra) =
      .ok (t, t.to_bytes.length) := by
  obtain ⟨ver, inputs, lt⟩ := t
  obtain ⟨hver, hin, hcnt, hlt⟩ := h
  have hver' : ver < 2 ^ 32 := hver
  have hlt' : lt < 2 ^ 32 := hlt
  have hcnt' : inputs.length < 2 ^ 63 := hcnt
  have hin' : ∀ i ∈ inputs, i.WF := hin
  have hlen4v : (toLE 4 ver).length = 4 := toLE_length 4 ver
  have hlen4l : (toLE 4 lt).length = 4 := toLE_length 4 lt
  set cnt := (CompactSize.new inputs.length).to_bytes with hcntdef
  set flat := (inputs.map TransactionInput.to_bytes).flatten with hflatdef
  have hbuf : (⟨ver, inputs, lt⟩ : BitcoinTransaction).to_bytes ++ extra =
      toLE 4 ver ++ (cnt ++ (flat ++ (toLE 4 lt ++ extra))) := by
    simp [BitcoinTransaction.to_bytes]
  rw [hbuf]
  set buf := toLE 4 ver ++ (cnt ++ (flat ++ (toLE 4 lt ++ extra))) with hbufdef
  have hif4 : ¬ buf.length < 4 := by
    simp only [hbufdef, List.length_append, hlen4v]; omega
  have htakev : buf.take 4 = toLE 4 ver := by
    rw [hbufdef, ← hlen4v]; exact List.take_left _ _
  have hdrop4 : buf.drop 4 = cnt ++ (flat ++ (toLE 4 lt ++ extra)) := by
    rw [hbufdef, ← hlen4v]; exact List.drop_left _ _
  have hcs := cs_decode_encode (CompactSize.new inputs.length)
    (by simpa [CompactSize.WF, CompactSize.new] using by omega)
    (flat ++ (toLE 4 lt ++ extra))
  have hloop := decodeInputs_encode inputs hin' (toLE 4 ver ++ cnt)
    (toLE 4 lt ++ extra)
  have hpre : (toLE 4 ver ++ cnt).length = 4 + cnt.length := by
    simp [hlen4v]
  have hbufeq : buf = (toLE 4 ver ++ cnt) ++ (flat ++ (toLE 4 lt ++ extra)) := by
    simp [hbufdef]
  have hloop' : decodeInputs inputs.length buf (4 + cnt.length) =
      .ok (inputs, 4 + cnt.length + flat.length) := by
    rw [hbufeq, ← hpre]
    rw [hloop]
  have hdroplt : buf.drop (4 + cnt.length + flat.length) =
      toLE 4 lt ++ extra := by
    have : buf = ((toLE 4 ver ++ cnt) ++ flat) ++ (toLE 4 lt ++ extra) := by
      simp [hbufdef]
    rw [this]
    have hl : ((toLE 4 ver ++ cnt) ++ flat).length =
        4 + cnt.length + flat.length := by
      simp [hlen4v]; omega
    rw [← hl]; exact List.drop_left _ _
  have htakelt : (toLE 4 lt ++ extra).take 4 = toLE 4 lt := by
    rw [← hlen4l]; exact List.take_left _ _
  have hiflt : ¬ buf.length < 4 + cnt.length + flat.length + 4 := by
    simp only [hbufdef, List.length_append, hlen4v, hlen4l]; omega
  have hval : (CompactSize.new inputs.length).value = inputs.length := rfl
  have hloop2 : decodeInputs inputs.length buf
      (4 + (CompactSize.new inputs.length).to_bytes.length) =
      .ok (inputs,
        4 + (CompactSize.new inputs.length).to_bytes.length + flat.length) :=
    hloop'
  have hiflt2 : ¬ buf.length <
      4 + (CompactSize.new inputs.length).to_bytes.length + flat.length + 4 :=
    hiflt
  have hdroplt2 : buf.drop
      (4 + (CompactSize.new inputs.length).to_bytes.length + flat.length) =
      toLE 4 lt ++ extra := hdroplt
  rw [BitcoinTransaction.from_bytes, if_neg hif4, htakev,
    fromLE_toLE (show ver < 2 ^ (8 * 4) by omega), hdrop4]
  simp only [hcs, hval, hloop2, hiflt2, hdroplt2, htakelt,
    fromLE_toLE (show lt < 2 ^ (8 * 4) by omega)]
  simp [BitcoinTransaction.new, BitcoinTransaction.to_bytes, hflatdef,
    hlen4v, hlen4l]
  omega

/-- Decoder `CompactSize::from_bytes` fails only with `InsufficientBytes`. -/
theorem cs_error_insufficient (bytes : List Nat) (e : BitcoinError)
    (h : CompactSize.from_bytes bytes = .error e) : e = .InsufficientBytes := by
  cases bytes with
  | nil => simp [CompactSize.from_bytes] at h; simp [h]
  | cons b rest =>
    simp only [CompactSize.from_bytes] at h
    split_ifs at h <;> simp_all

/-- Decoder `OutPoint::from_bytes` fails only with `InsufficientBytes`. -/
theorem op_error_insufficient (bytes : List Nat) (e : BitcoinError)
    (h : OutPoint.from_bytes bytes = .error e) : e = .InsufficientBytes := by
  unfold OutPoint.from_bytes at h
  split_ifs at h <;> simp_all

/-- Decoder `Script::from_bytes` fails only with `InsufficientBytes`. -/
theorem script_error_insufficient (bytes : List Nat) (e : BitcoinError)
    (h : Script.from_bytes bytes = .error e) : e = .InsufficientBytes := by
  unfold Script.from_bytes at h
  cases hcs : CompactSize.from_bytes bytes with
  | error e' =>
    rw [hcs] at h
    simp at h
    exact h ▸ cs_error_insufficient bytes e' hcs
  | ok v =>
    obtain ⟨pref, consumed⟩ := v
    rw [hcs] at h
    simp at h
    split_ifs at h <;> simp_all

/-- Decoder `TransactionInput::from_bytes` fails only with `InsufficientBytes`. -/
theorem input_error_insufficient (bytes : List Nat) (e : BitcoinError)
    (h : TransactionInput.from_bytes bytes = .error e) :
    e = .InsufficientBytes := by
  unfold TransactionInput.from_bytes at h
  cases hop : OutPoint.from_bytes bytes with
  | error e' =>
    rw [hop] at h
    simp at h
    exact h ▸ op_error_insufficient bytes e' hop
  | ok v =>
    obtain ⟨outpoint, c1⟩ := v
    rw [hop] at h
    simp at h
    cases hsc : Script.from_bytes (bytes.drop c1) with
    | error e' =>
      rw [hsc] at h
      simp at h
      exact h ▸ script_error_insufficient _ e' hsc
    | ok w =>
      obtain ⟨script, c2⟩ := w
      rw [hsc] at h
      simp at h
      split_ifs at h <;> simp_all

/-- The input-decoding loop fails only with `InsufficientBytes`. -/
theorem decodeInputs_error_insufficient (n : Nat) (bytes : List Nat)
    (offset : Nat) (e : BitcoinError)
    (h : decodeInputs n bytes offset = .error e) : e = .InsufficientBytes := by
  induction n generalizing offset with
  | zero => simp [decodeInputs] at h
  | succ n ih =>
    simp only [decodeInputs] at h
    cases hin : TransactionInput.from_bytes (bytes.drop offset) with
    | error e' =>
      rw [hin] at h
      simp at h
      exact h ▸ input_error_insufficient _ e' hin
    | ok v =>
      obtain ⟨input, consumed⟩ := v
      rw [hin] at h
      simp at h
      cases hrec : decodeInputs n bytes (offset + consumed) with
      | error e' =>
        rw [hrec] at h
        simp at h
        subst h
        exact ih (offset + consumed) hrec
      | ok w =>
        rw [hrec] at h
        simp at h

/-- Decoder `BitcoinTransaction::from_bytes` fails only with `InsufficientBytes`. -/
theorem tx_error_insufficient (bytes : List Nat) (e : BitcoinError)
    (h : BitcoinTransaction.from_bytes bytes = .error e) :
    e = .InsufficientBytes := by
  unfold BitcoinTransaction.from_bytes at h
  split_ifs at h with h4
  · simp_all
  · cases hcs : CompactSize.from_bytes (bytes.drop 4) with
    | error e' =>
      rw [hcs] at h
      simp at h
      exact h ▸ cs_error_insufficient _ e' hcs
    | ok v =>
      obtain ⟨cnt, c1⟩ := v
      rw [hcs] at h
      simp at h
      cases hloop : decodeInputs cnt.value bytes (4 + c1) with
      | error e' =>
        rw [hloop] at h
        simp at h
        exact h ▸ decodeInputs_error_insufficient _ _ _ e' hloop
      | ok w =>
        obtain ⟨inputs, offset⟩ := w
        rw [hloop] at h
        simp at h
        split_ifs at h <;> simp_all

/-- Truncating the last byte of a `CompactSize` encoding breaks decoding. -/
theorem cs_truncated (c : CompactSize) (h : c.WF) :
    CompactSize.from_bytes c.to_bytes.dropLast = .error .InsufficientBytes := by
  obtain ⟨v⟩ := c
  simp only [CompactSize.to_bytes]
  by_cases h1 : v ≤ 0xFC
  · simp [h1, CompactSize.from_bytes]
  · by_cases h2 : v ≤ 0xFFFF
    · simp [h1, h2, toLE, List.dropLast, CompactSize.from_bytes]
    · by_cases h3 : v ≤ 0xFFFFFFFF
      · simp [h1, h2, h3, toLE, List.dropLast, CompactSize.from_bytes]
      · simp [h1, h2, h3, toLE, List.dropLast, CompactSize.from_bytes]

/-- Truncating the last byte of an `OutPoint` encoding breaks decoding. -/
theorem op_truncated (p : OutPoint) (h : p.WF) :
    OutPoint.from_bytes p.to_bytes.dropLast = .error .InsufficientBytes := by
  have hlen : p.to_bytes.length = 36 := outpoint_to_bytes_length p h
  have : p.to_bytes.dropLast.length = 35 := by
    rw [List.length_dropLast, hlen]
  unfold OutPoint.from_bytes
  rw [if_pos (by omega)]

/-- Truncating the last byte of a `Script` encoding breaks decoding. -/
theorem script_truncated (s : Script) (h : s.bytes.length < 2 ^ 64) :
    Script.from_bytes s.to_bytes.dropLast = .error .InsufficientBytes := by
  obtain ⟨bs⟩ := s
  simp only [Script.bytes] at h
  cases bs with
  | nil =>
    simp [Script.to_bytes, CompactSize.new, CompactSize.to_bytes,
      Script.from_bytes, CompactSize.from_bytes, List.dropLast]
  | cons x xs =>
    have hdl : (Script.to_bytes ⟨x :: xs⟩).dropLast =
        (CompactSize.new (x :: xs).length).to_bytes ++ (x :: xs).dropLast := by
      simp [Script.to_bytes, List.dropLast_append_cons]
    rw [hdl]
    have hcs := cs_decode_encode (CompactSize.new (x :: xs).length) h
      (x :: xs).dropLast
    simp only [Script.from_bytes, hcs]
    have hval : (CompactSize.new (xs.length + 1)).value = xs.length + 1 := rfl
    have hlt : ((CompactSize.new (x :: xs).length).to_bytes ++
        (x :: xs).dropLast).length <
        (CompactSize.new (x :: xs).length).to_bytes.length +
          (CompactSize.new (x :: xs).length).value := by
      simp only [List.length_cons, List.length_append, List.length_dropLast,
        hval]
      omega
    rw [if_pos hlt]

/-- Truncating the last byte of a `TransactionInput` encoding breaks
decoding. -/
theorem input_truncated (i : TransactionInput) (h : i.WF) :
    TransactionInput.from_bytes i.to_bytes.dropLast =
      .error .InsufficientBytes := by
  obtain ⟨p, s, q⟩ := i
  obtain ⟨hp, hs, hq⟩ := h
  have hs' : s.WF := hs
  have hd3 : (toLE 4 q).dropLast = [q % 256, q / 256 % 256, q / 256 / 256 % 256] := by
    simp [toLE, List.dropLast]
  have hdl : (⟨p, s, q⟩ : TransactionInput).to_bytes.dropLast =
      p.to_bytes ++ (s.to_bytes ++ (toLE 4 q).dropLast) := by
    show (p.to_bytes ++ s.to_bytes ++ toLE 4 q).dropLast = _
    rw [show toLE 4 q = q % 256 :: toLE 3 (q / 256) from rfl,
      List.dropLast_append_cons]
    simp [toLE, List.dropLast]
  rw [hdl]
  have h1 := outpoint_decode_encode p hp (s.to_bytes ++ (toLE 4 q).dropLast)
  have h2 := script_decode_encode s (by have := hs'.2; omega) ((toLE 4 q).dropLast)
  have hdrop1 : (p.to_bytes ++ (s.to_bytes ++ (toLE 4 q).dropLast)).drop
      p.to_bytes.length = s.to_bytes ++ (toLE 4 q).dropLast :=
    List.drop_left _ _
  simp only [TransactionInput.from_bytes, h1, hdrop1, h2]
  have hif : (p.to_bytes ++ (s.to_bytes ++ (toLE 4 q).dropLast)).length <
      p.to_bytes.length + s.to_bytes.length + 4 := by
    simp only [List.length_append, hd3, List.length_cons, List.length_nil]
    omega
  rw [if_pos hif]

/-- Truncating the last byte of a `BitcoinTransaction` encoding breaks
decoding. -/
theorem tx_truncated (t : BitcoinTransaction) (h : t.WF) :
    BitcoinTransaction.from_bytes t.to_bytes.dropLast =
      .error .InsufficientBytes := by
  obtain ⟨ver, inputs, lt⟩ := t
  obtain ⟨hver, hin, hcnt, hlt⟩ := h
  have hver' : ver < 2 ^ 32 := hver
  have hcnt' : inputs.length < 2 ^ 63 := hcnt
  have hin' : ∀ i ∈ inputs, i.WF := hin
  have hlen4v : (toLE 4 ver).length = 4 := toLE_length 4 ver
  set cnt := (CompactSize.new inputs.length).to_bytes with hcntdef
  set flat := (inputs.map TransactionInput.to_bytes).flatten with hflatdef
  have hd3 : (toLE 4 lt).dropLast =
      [lt % 256, lt / 256 % 256, lt / 256 / 256 % 256] := by
    simp [toLE, List.dropLast]
  have hdl : (⟨ver, inputs, lt⟩ : BitcoinTransaction).to_bytes.dropLast =
      toLE 4 ver ++ (cnt ++ (flat ++ (toLE 4 lt).dropLast)) := by
    show (toLE 4 ver ++ cnt ++ flat ++ toLE 4 lt).dropLast = _
    rw [show toLE 4 lt = lt % 256 :: toLE 3 (lt / 256) from rfl,
      List.dropLast_append_cons]
    simp [toLE, List.dropLast]
  rw [hdl]
  set buf := toLE 4 ver ++ (cnt ++ (flat ++ (toLE 4 lt).dropLast)) with hbufdef
  have hif4 : ¬ buf.length < 4 := by
    simp only [hbufdef, List.length_append, hlen4v]; omega
  have htakev : buf.take 4 = toLE 4 ver := by
    rw [hbufdef, ← hlen4v]; exact List.take_left _ _
  have hdrop4 : buf.drop 4 = cnt ++ (flat ++ (toLE 4 lt).dropLast) := by
    rw [hbufdef, ← hlen4v]; exact List.drop_left _ _
  have hcs := cs_decode_encode (CompactSize.new inputs.length)
    (by simpa [CompactSize.WF, CompactSize.new] using by omega)
    (flat ++ (toLE 4 lt).dropLast)
  have hpre : (toLE 4 ver ++ cnt).length = 4 + cnt.length := by
    simp [hlen4v]
  have hbufeq : buf = (toLE 4 ver ++ cnt) ++ (flat ++ (toLE 4 lt).dropLast) := by
    simp [hbufdef]
  have hloop' : decodeInputs inputs.length buf (4 + cnt.length) =
      .ok (inputs, 4 + cnt.length + flat.length) := by
    rw [hbufeq, ← hpre]
    rw [decodeInputs_encode inputs hin' (toLE 4 ver ++ cnt) (toLE 4 lt).dropLast]
  have hval : (CompactSize.new inputs.length).value = inputs.length := rfl
  have hloop2 : decodeInputs inputs.length buf
      (4 + (CompactSize.new inputs.length).to_bytes.length) =
      .ok (inputs,
        4 + (CompactSize.new inputs.length).to_bytes.length + flat.length) :=
    hloop'
  have hiflt : buf.length <
      4 + (CompactSize.new inputs.length).to_bytes.length + flat.length + 4 := by
    show buf.length < 4 + cnt.length + flat.length + 4
    simp only [hbufdef, List.length_append, hlen4v, hd3, List.length_cons,
      List.length_nil]
    omega
  rw [BitcoinTransaction.from_bytes, if_neg hif4, htakev,
    fromLE_toLE (show ver < 2 ^ (8 * 4) by omega), hdrop4]
  simp only [hcs, hval, hloop2, hiflt, if_true]

/-- C1: for every well-formed value of each of the five codec types,
decoding its encoding succeeds and returns the identical value together
with a consumed-byte count equal to the length of the encoding. -/
theorem claim_c1_roundtrip :
    (∀ c : CompactSize, c.WF →
      CompactSize.from_bytes c.to_bytes = .ok (c, c.to_bytes.length)) ∧
    (∀ p : OutPoint, p.WF →
      OutPoint.from_bytes p.to_bytes = .ok (p, p.to_bytes.length)) ∧
    (∀ s : Script, s.WF →
      Script.from_bytes s.to_bytes = .ok (s, s.to_bytes.length)) ∧
    (∀ i : TransactionInput, i.WF →
      TransactionInput.from_bytes i.to_bytes = .ok (i, i.to_bytes.length)) ∧
    (∀ t : BitcoinTransaction, t.WF →
      BitcoinTransaction.from_bytes t.to_bytes = .ok (t, t.to_bytes.length)) := by
  refine ⟨fun c h => ?_, fun p h => ?_, fun s h => ?_, fun i h => ?_,
    fun t h => ?_⟩
  · simpa using cs_decode_encode c h []
  · simpa using outpoint_decode_encode p h []
  · simpa using script_decode_encode s (by have := h.2; omega) []
  · simpa using input_decode_encode i h []
  · simpa using tx_decode_encode t h []

/-- Witness for C1 at concrete values of each type. -/
theorem claim_c1_roundtrip_witness :
    CompactSize.from_bytes (CompactSize.new 300).to_bytes =
      .ok (CompactSize.new 300, (CompactSize.new 300).to_bytes.length) ∧
    OutPoint.from_bytes (OutPoint.new (List.replicate 32 0) 7).to_bytes =
      .ok (OutPoint.new (List.replicate 32 0) 7,
        (OutPoint.new (List.replicate 32 0) 7).to_bytes.length) ∧
    Script.from_bytes (Script.new [1, 2, 3]).to_bytes =
      .ok (Script.new [1, 2, 3], (Script.new [1, 2, 3]).to_bytes.length) ∧
    TransactionInput.from_bytes
        (TransactionInput.new (OutPoint.new (List.replicate 32 0) 7)
          (Script.new [1, 2, 3]) 9).to_bytes =
      .ok (TransactionInput.new (OutPoint.new (List.replicate 32 0) 7)
          (Script.new [1, 2, 3]) 9,
        (TransactionInput.new (OutPoint.new (List.replicate 32 0) 7)
          (Script.new [1, 2, 3]) 9).to_bytes.length) ∧
    BitcoinTransaction.from_bytes
        (BitcoinTransaction.new 1
          [TransactionInput.new (OutPoint.new (List.replicate 32 0) 7)
            (Script.new [1, 2, 3]) 9] 0).to_bytes =
      .ok (BitcoinTransaction.new 1
          [TransactionInput.new (OutPoint.new (List.replicate 32 0) 7)
            (Script.new [1, 2, 3]) 9] 0,
        (BitcoinTransaction.new 1
          [TransactionInput.new (OutPoint.new (List.replicate 32 0) 7)
            (Script.new [1, 2, 3]) 9] 0).to_bytes.length) :=
  ⟨claim_c1_roundtrip.1 (CompactSize.new 300) (by decide),
   claim_c1_roundtrip.2.1 (OutPoint.new (List.replicate 32 0) 7) (by decide),
   claim_c1_roundtrip.2.2.1 (Script.new [1, 2, 3]) (by decide),
   claim_c1_roundtrip.2.2.2.1 (TransactionInput.new
     (OutPoint.new (List.replicate 32 0) 7) (Script.new [1, 2, 3]) 9)
     (by decide),
   claim_c1_roundtrip.2.2.2.2 (BitcoinTransaction.new 1
     [TransactionInput.new (OutPoint.new (List.replicate 32 0) 7)
       (Script.new [1, 2, 3]) 9] 0) (by decide)⟩

/-- C9: decoding reads only a prefix of its input: appending arbitrary
trailing bytes to a valid encoding changes neither the decoded value nor
the consumed count, for every codec type. -/
theorem claim_c9_trailing_bytes :
    (∀ c : CompactSize, c.WF → ∀ extra : List Nat,
      CompactSize.from_bytes (c.to_bytes ++ extra) =
        .ok (c, c.to_bytes.length)) ∧
    (∀ p : OutPoint, p.WF → ∀ extra : List Nat,
      OutPoint.from_bytes (p.to_bytes ++ extra) =
        .ok (p, p.to_bytes.length)) ∧
    (∀ s : Script, s.WF → ∀ extra : List Nat,
      Script.from_bytes (s.to_bytes ++ extra) =
        .ok (s, s.to_bytes.length)) ∧
    (∀ i : TransactionInput, i.WF → ∀ extra : List Nat,
      TransactionInput.from_bytes (i.to_bytes ++ extra) =
        .ok (i, i.to_bytes.length)) ∧
    (∀ t : BitcoinTransaction, t.WF → ∀ extra : List Nat,
      BitcoinTransaction.from_bytes (t.to_bytes ++ extra) =
        .ok (t, t.to_bytes.length)) :=
  ⟨fun c h extra => cs_decode_encode c h extra,
   fun p h extra => outpoint_decode_encode p h extra,
   fun s h extra => script_decode_encode s (by have := h.2; omega) extra,
   fun i h extra => input_decode_encode i h extra,
   fun t h extra => tx_decode_encode t h extra⟩

/-- Witness for C9: a CompactSize and an OutPoint encoding followed by
garbage still decode to the original value. -/
theorem claim_c9_trailing_bytes_witness :
    CompactSize.from_bytes ((CompactSize.new 0xFD).to_bytes ++ [7, 7, 7]) =
      .ok (CompactSize.new 0xFD, (CompactSize.new 0xFD).to_bytes.length) ∧
    Script.from_bytes ((Script.new [4, 5]).to_bytes ++ [0xAB]) =
      .ok (Script.new [4, 5], (Script.new [4, 5]).to_bytes.length) :=
  ⟨claim_c9_trailing_bytes.1 (CompactSize.new 0xFD) (by decide) [7, 7, 7],
   claim_c9_trailing_bytes.2.2.1 (Script.new [4, 5]) (by decide) [0xAB]⟩

/-- C4: for every well-formed value of each codec type, decoding its
encoding with the last byte removed fails with `InsufficientBytes`. -/
theorem claim_c4_truncation :
    (∀ c : CompactSize, c.WF →
      CompactSize.from_bytes c.to_bytes.dropLast =
        .error .InsufficientBytes) ∧
    (∀ p : OutPoint, p.WF →
      OutPoint.from_bytes p.to_bytes.dropLast = .error .InsufficientBytes) ∧
    (∀ s : Script, s.WF →
      Script.from_bytes s.to_bytes.dropLast = .error .InsufficientBytes) ∧
    (∀ i : TransactionInput, i.WF →
      TransactionInput.from_bytes i.to_bytes.dropLast =
        .error .InsufficientBytes) ∧
    (∀ t : BitcoinTransaction, t.WF →
      BitcoinTransaction.from_bytes t.to_bytes.dropLast =
        .error .InsufficientBytes) :=
  ⟨fun c h => cs_truncated c h,
   fun p h => op_truncated p h,
   fun s h => script_truncated s (by have := h.2; omega),
   fun i h => input_truncated i h,
   fun t h => tx_truncated t h⟩

/-- Witness for C4 at concrete values of each type. -/
theorem claim_c4_truncation_witness :
    CompactSize.from_bytes (CompactSize.new 0x10000).to_bytes.dropLast =
      .error .InsufficientBytes ∧
    OutPoint.from_bytes
        (OutPoint.new (List.replicate 32 2) 5).to_bytes.dropLast =
      .error .InsufficientBytes ∧
    Script.from_bytes (Script.new [8]).to_bytes.dropLast =
      .error .InsufficientBytes ∧
    TransactionInput.from_bytes
        (TransactionInput.new (OutPoint.new (List.replicate 32 2) 5)
          (Script.new [8]) 3).to_bytes.dropLast =
      .error .InsufficientBytes ∧
    BitcoinTransaction.from_bytes
        (BitcoinTransaction.new 2
          [TransactionInput.new (OutPoint.new (List.replicate 32 2) 5)
            (Script.new [8]) 3] 6).to_bytes.dropLast =
      .error .InsufficientBytes :=
  ⟨claim_c4_truncation.1 (CompactSize.new 0x10000) (by decide),
   claim_c4_truncation.2.1 (OutPoint.new (List.replicate 32 2) 5) (by decide),
   claim_c4_truncation.2.2.1 (Script.new [8]) (by decide),
   claim_c4_truncation.2.2.2.1 (TransactionInput.new
     (OutPoint.new (List.replicate 32 2) 5) (Script.new [8]) 3) (by decide),
   claim_c4_truncation.2.2.2.2 (BitcoinTransaction.new 2
     [TransactionInput.new (OutPoint.new (List.replicate 32 2) 5)
       (Script.new [8]) 3] 6) (by decide)⟩

/-- C2: `CompactSize::to_bytes` produces the canonical minimal-width
encoding determined solely by the value's tier (1, 3, 5 or 9 bytes with
little-endian payload), and the five example vectors hold. -/
theorem claim_c2_canonical_encoding :
    (∀ c : CompactSize,
      (c.value ≤ 0xFC → c.to_bytes = [c.value]) ∧
      (0xFD ≤ c.value → c.value ≤ 0xFFFF →
        c.to_bytes = [0xFD, c.value % 256, c.value / 2 ^ 8]) ∧
      (0x10000 ≤ c.value → c.value ≤ 0xFFFFFFFF →
        c.to_bytes = [0xFE, c.value % 256, c.value / 2 ^ 8 % 256,
          c.value / 2 ^ 16 % 256, c.value / 2 ^ 24]) ∧
      (0x100000000 ≤ c.value → c.value < 2 ^ 64 →
        c.to_bytes = [0xFF, c.value % 256, c.value / 2 ^ 8 % 256,
          c.value / 2 ^ 16 % 256, c.value / 2 ^ 24 % 256,
          c.value / 2 ^ 32 % 256, c.value / 2 ^ 40 % 256,
          c.value / 2 ^ 48 % 256, c.value / 2 ^ 56])) ∧
    (CompactSize.new 0).to_bytes = [0x00] ∧
    (CompactSize.new 0xFC).to_bytes = [0xFC] ∧
    (CompactSize.new 0xFD).to_bytes = [0xFD, 0xFD, 0x00] ∧
    (CompactSize.new 0x10000).to_bytes = [0xFE, 0x00, 0x00, 0x01, 0x00] ∧
    (CompactSize.new 0x100000000).to_bytes =
      [0xFF, 0, 0, 0, 0, 1, 0, 0, 0] := by
  refine ⟨fun c => ⟨fun h1 => ?_, fun h1 h2 => ?_, fun h1 h2 => ?_,
    fun h1 h2 => ?_⟩, by decide, by decide, by decide, by decide, by decide⟩
  · obtain ⟨v⟩ := c
    simp only [CompactSize.value] at h1
    simp [CompactSize.to_bytes, h1, Nat.mod_eq_of_lt (show v < 256 by omega)]
  · obtain ⟨v⟩ := c
    simp only [CompactSize.value] at h1 h2
    simp only [CompactSize.to_bytes, if_neg (show ¬ v ≤ 0xFC by omega),
      if_pos h2, toLE]
    norm_num
    omega
  · obtain ⟨v⟩ := c
    simp only [CompactSize.value] at h1 h2
    simp only [CompactSize.to_bytes, if_neg (show ¬ v ≤ 0xFC by omega),
      if_neg (show ¬ v ≤ 0xFFFF by omega), if_pos h2, toLE]
    norm_num
    omega
  · obtain ⟨v⟩ := c
    simp only [CompactSize.value] at h1 h2
    simp only [CompactSize.to_bytes, if_neg (show ¬ v ≤ 0xFC by omega),
      if_neg (show ¬ v ≤ 0xFFFF by omega),
      if_neg (show ¬ v ≤ 0xFFFFFFFF by omega), toLE]
    norm_num
    omega

/-- Witness for C2 at concrete values in the one-byte and three-byte
tiers. -/
theorem claim_c2_canonical_encoding_witness :
    (CompactSize.new 5).to_bytes = [5] ∧
    (CompactSize.new 0x1234).to_bytes =
      [0xFD, 0x1234 % 256, 0x1234 / 2 ^ 8] :=
  ⟨(claim_c2_canonical_encoding.1 (CompactSize.new 5)).1 (by decide),
   (claim_c2_canonical_encoding.1 (CompactSize.new 0x1234)).2.1 (by decide)
     (by decide)⟩

/-- C3: `CompactSize::from_bytes` case analysis — the empty buffer fails
with `InsufficientBytes`; a first byte `≤ 0xFC` is its own value with
consumed 1; first byte `0xFD`/`0xFE`/`0xFF` requires 3/5/9 total bytes
(else `InsufficientBytes`) and otherwise reads the next 2/4/8 bytes
little-endian with consumed 3/5/9; non-minimal encodings are accepted,
e.g. `[0xFE, 5, 0, 0, 0]` decodes to `(5, 5)`. -/
theorem claim_c3_decode_tiers :
    CompactSize.from_bytes [] = .error .InsufficientBytes ∧
    (∀ (b : Nat) (rest : List Nat), b ≤ 0xFC →
      CompactSize.from_bytes (b :: rest) = .ok (CompactSize.new b, 1)) ∧
    (∀ rest : List Nat, rest.length < 2 →
      CompactSize.from_bytes (0xFD :: rest) = .error .InsufficientBytes) ∧
    (∀ (b1 b2 : Nat) (rest : List Nat),
      CompactSize.from_bytes (0xFD :: b1 :: b2 :: rest) =
        .ok (CompactSize.new (b1 + 2 ^ 8 * b2), 3)) ∧
    (∀ rest : List Nat, rest.length < 4 →
      CompactSize.from_bytes (0xFE :: rest) = .error .InsufficientBytes) ∧
    (∀ (b1 b2 b3 b4 : Nat) (rest : List Nat),
      CompactSize.from_bytes (0xFE :: b1 :: b2 :: b3 :: b4 :: rest) =
        .ok (CompactSize.new
          (b1 + 2 ^ 8 * b2 + 2 ^ 16 * b3 + 2 ^ 24 * b4), 5)) ∧
    (∀ rest : List Nat, rest.length < 8 →
      CompactSize.from_bytes (0xFF :: rest) = .error .InsufficientBytes) ∧
    (∀ (b1 b2 b3 b4 b5 b6 b7 b8 : Nat) (rest : List Nat),
      CompactSize.from_bytes
          (0xFF :: b1 :: b2 :: b3 :: b4 :: b5 :: b6 :: b7 :: b8 :: rest) =
        .ok (CompactSize.new
          (b1 + 2 ^ 8 * b2 + 2 ^ 16 * b3 + 2 ^ 24 * b4 + 2 ^ 32 * b5 +
            2 ^ 40 * b6 + 2 ^ 48 * b7 + 2 ^ 56 * b8), 9)) ∧
    CompactSize.from_bytes [0xFE, 0x05, 0x00, 0x00, 0x00] =
      .ok (CompactSize.new 5, 5) := by
  refine ⟨rfl, fun b rest h => ?_, fun rest h => ?_, fun b1 b2 rest => ?_,
    fun rest h => ?_, fun b1 b2 b3 b4 rest => ?_, fun rest h => ?_,
    fun b1 b2 b3 b4 b5 b6 b7 b8 rest => ?_, by decide⟩
  · simp [CompactSize.from_bytes, h]
  · simp [CompactSize.from_bytes, h]
  · simp [CompactSize.from_bytes, fromLE, CompactSize.new]
  · simp [CompactSize.from_bytes, h]
  · simp [CompactSize.from_bytes, fromLE, CompactSize.new]
    ring_nf
    rw [if_neg (by omega)]
  · simp [CompactSize.from_bytes, h]
  · simp [CompactSize.from_bytes, fromLE, CompactSize.new]
    ring_nf
    rw [if_neg (by omega)]

/-- Witness for C3: concrete instances of the one-byte tier, the
truncated-0xFD tier and the full 0xFD tier. -/
theorem claim_c3_decode_tiers_witness :
    CompactSize.from_bytes [7, 9, 9] = .ok (CompactSize.new 7, 1) ∧
    CompactSize.from_bytes [0xFD, 1] = .error .InsufficientBytes ∧
    CompactSize.from_bytes [0xFD, 2, 1] =
      .ok (CompactSize.new (2 + 2 ^ 8 * 1), 3) :=
  ⟨claim_c3_decode_tiers.2.1 7 [9, 9] (by decide),
   claim_c3_decode_tiers.2.2.1 [1] (by decide),
   claim_c3_decode_tiers.2.2.2.1 2 1 []⟩

/-- C8: `OutPoint::from_bytes` fails with `InsufficientBytes` exactly on
buffers shorter than 36 bytes; otherwise the txid is the first 32 bytes,
the vout is bytes 32..36 little-endian and consumed = 36; including the
two example vectors. -/
theorem claim_c8_outpoint_decode :
    (∀ bytes : List Nat, bytes.length < 36 →
      OutPoint.from_bytes bytes = .error .InsufficientBytes) ∧
    (∀ (pre : List Nat) (a b c d : Nat) (rest : List Nat), pre.length = 32 →
      OutPoint.from_bytes (pre ++ a :: b :: c :: d :: rest) =
        .ok (OutPoint.new pre
          (a + 2 ^ 8 * b + 2 ^ 16 * c + 2 ^ 24 * d), 36)) ∧
    OutPoint.from_bytes [] = .error .InsufficientBytes ∧
    OutPoint.from_bytes (List.replicate 32 0 ++ [1, 0, 0, 0]) =
      .ok (OutPoint.new (List.replicate 32 0) 1, 36) := by
  refine ⟨fun bytes h => ?_, fun pre a b c d rest hpre => ?_, rfl, by decide⟩
  · unfold OutPoint.from_bytes
    rw [if_pos h]
  · have hif : ¬ (pre ++ a :: b :: c :: d :: rest).length < 36 := by
      simp only [List.length_append, List.length_cons, hpre]
      omega
    have htake : (pre ++ a :: b :: c :: d :: rest).take 32 = pre := by
      rw [← hpre]; exact List.take_left _ _
    have hdrop : (pre ++ a :: b :: c :: d :: rest).drop 32 =
        a :: b :: c :: d :: rest := by
      rw [← hpre]; exact List.drop_left _ _
    unfold OutPoint.from_bytes
    rw [if_neg hif, htake, hdrop]
    simp [fromLE, OutPoint.new]
    ring_nf

/-- Witness for C8: a short buffer fails; a 36-byte buffer of 32 ones then
`[2, 1, 0, 0]` gives vout `2 + 2^8`. -/
theorem claim_c8_outpoint_decode_witness :
    OutPoint.from_bytes [0, 0, 0] = .error .InsufficientBytes ∧
    OutPoint.from_bytes (List.replicate 32 1 ++ 2 :: 1 :: 0 :: 0 :: []) =
      .ok (OutPoint.new (List.replicate 32 1)
        (2 + 2 ^ 8 * 1 + 2 ^ 16 * 0 + 2 ^ 24 * 0), 36) :=
  ⟨claim_c8_outpoint_decode.1 [0, 0, 0] (by decide),
   claim_c8_outpoint_decode.2.1 (List.replicate 32 1) 2 1 0 0 [] (by decide)⟩

/-- C5 counterexample: the empty transaction's encoding is not 10 bytes
long (it is 9: 4 version + 1 count + 4 lock time), so the claim as stated
is false. -/
theorem claim_c5_counterexample :
    ¬ ((BitcoinTransaction.new 1 [] 0).to_bytes =
        [1, 0, 0, 0, 0x00, 0, 0, 0, 0] ∧
      (BitcoinTransaction.new 1 [] 0).to_bytes.length = 10) := by
  decide

/-- C5 (amended): a transaction with version 1, no inputs and lock time 0
encodes to exactly `[1, 0, 0, 0, 0x00, 0, 0, 0, 0]`, which is 9 bytes, and
that byte sequence decodes back to the identical transaction. -/
theorem claim_c5_empty_tx :
    (BitcoinTransaction.new 1 [] 0).to_bytes =
      [1, 0, 0, 0, 0x00, 0, 0, 0, 0] ∧
    (BitcoinTransaction.new 1 [] 0).to_bytes.length = 9 ∧
    BitcoinTransaction.from_bytes [1, 0, 0, 0, 0x00, 0, 0, 0, 0] =
      .ok (BitcoinTransaction.new 1 [] 0, 9) := by
  decide

/-- The faithful `usize` model of `Script::from_bytes` agrees with the
ideal model on every buffer whose prefix-consumed count plus declared
length stays below 2^64 (always the case for real Rust inputs). -/
theorem script_from_bytes_usize_agrees (bytes : List Nat)
    (h : ∀ c k, CompactSize.from_bytes bytes = .ok (c, k) →
      k + c.value < 2 ^ 64) :
    Script.from_bytes_usize bytes = some (Script.from_bytes bytes) := by
  unfold Script.from_bytes_usize Script.from_bytes
  cases hcs : CompactSize.from_bytes bytes with
  | error e => simp
  | ok v =>
    obtain ⟨c, k⟩ := v
    have hlt := h c k hcs
    simp only [Nat.mod_eq_of_lt hlt]
    split_ifs with h1 h2
    · rfl
    · simp [Nat.add_sub_cancel_left]
    · exact absurd (Nat.le_add_right k c.value) h2

/-- C6: the Script decoder is supposed to fail with `InsufficientBytes`
whenever the buffer is shorter than prefix-consumed + declared length, but
on the 9-byte buffer `[0xFF, 0xF7, 0xFF × 7]` — whose prefix decodes to
length 2^64 - 9 over 9 consumed bytes, so the buffer is far too short —
the `usize` computation `end = consumed + len` wraps to 0 and the code
panics at the slice `bytes[9..0]` instead of returning an error. -/
theorem claim_c6_overflow_panic :
    CompactSize.from_bytes (0xFF :: 0xF7 :: List.replicate 7 0xFF) =
      .ok (CompactSize.new (2 ^ 64 - 9), 9) ∧
    (0xFF :: 0xF7 :: List.replicate 7 0xFF : List Nat).length <
      9 + (2 ^ 64 - 9) ∧
    Script.from_bytes_usize (0xFF :: 0xF7 :: List.replicate 7 0xFF) =
      none := by
  decide

/-- C10: `Script::from_bytes` is not crash-free: on the 9-byte buffer of
`0xFF`s the declared length is 2^64 - 1, `end = 9 + (2^64 - 1)` overflows
`usize` (panic in a debug build; wraps to 8 in release, after which the
slice `bytes[9..8]` panics), modelled by `none`. -/
theorem claim_c10_usize_panic :
    CompactSize.from_bytes (List.replicate 9 0xFF) =
      .ok (CompactSize.new (2 ^ 64 - 1), 9) ∧
    Script.from_bytes_usize (List.replicate 9 0xFF) = none := by
  decide

/-- C7: `Txid` text-decoding fails with `InvalidFormat` whenever the string
is not valid hex or decodes to a length other than 32 bytes — in
particular a 63-character hex string and a string of non-hex characters
are rejected — and `InvalidFormat` is raised only by this path: none of
the five binary decoders ever returns it. -/
theorem claim_c7_invalidformat :
    (∀ s : String, hexDecode s.data = none →
      Txid.fromText s = .error .InvalidFormat) ∧
    (∀ (s : String) (bs : List Nat), hexDecode s.data = some bs →
      bs.length ≠ 32 → Txid.fromText s = .error .InvalidFormat) ∧
    Txid.fromText (String.mk (List.replicate 63 'a')) =
      .error .InvalidFormat ∧
    Txid.fromText (String.mk (List.replicate 64 'g')) =
      .error .InvalidFormat ∧
    (∀ bytes : List Nat,
      CompactSize.from_bytes bytes ≠ .error .InvalidFormat) ∧
    (∀ bytes : List Nat, OutPoint.from_bytes bytes ≠ .error .InvalidFormat) ∧
    (∀ bytes : List Nat, Script.from_bytes bytes ≠ .error .InvalidFormat) ∧
    (∀ bytes : List Nat,
      TransactionInput.from_bytes bytes ≠ .error .InvalidFormat) ∧
    (∀ bytes : List Nat,
      BitcoinTransaction.from_bytes bytes ≠ .error .InvalidFormat) := by
  refine ⟨fun s h => ?_, fun s bs h hlen => ?_, by decide, by decide,
    fun bytes h => ?_, fun bytes h => ?_, fun bytes h => ?_,
    fun bytes h => ?_, fun bytes h => ?_⟩
  · simp [Txid.fromText, h]
  · simp [Txid.fromText, h, hlen]
  · exact BitcoinError.noConfusion
      (cs_error_insufficient bytes .InvalidFormat h)
  · exact BitcoinError.noConfusion
      (op_error_insufficient bytes .InvalidFormat h)
  · exact BitcoinError.noConfusion
      (script_error_insufficient bytes .InvalidFormat h)
  · exact BitcoinError.noConfusion
      (input_error_insufficient bytes .InvalidFormat h)
  · exact BitcoinError.noConfusion
      (tx_error_insufficient bytes .InvalidFormat h)

/-- Witness for C7: a non-hex two-character string and a valid hex string
of the wrong decoded length are both rejected with `InvalidFormat`. -/
theorem claim_c7_invalidformat_witness :
    Txid.fromText (String.mk ['z', 'z']) = .error .InvalidFormat ∧
    Txid.fromText (String.mk ['0', '0']) = .error .InvalidFormat :=
  ⟨claim_c7_invalidformat.1 (String.mk ['z', 'z']) (by decide),
   claim_c7_invalidformat.2.1 (String.mk ['0', '0']) [0] (by decide)
     (by decide)⟩
